import Mathlib

/-!
# RamFuzz runtime: a shallow embedding

Verification development for the RamFuzz generate/replay engine
(src/runtime/ramfuzz-rt.hpp), the string/char-pointer harnesses, and the
descriptor generator visibility predicate (src/lib/Util.cpp).

Numeric values flowing through `gen::between` are modelled as `Int`
(covering all the numeric instantiations of the C++ template); the type
tag `typetag<T>` (a byte, one per instantiated type `T`) is modelled as a
`Nat` parameter attached to each call.  The decision id is a `size_t`,
modelled as `Nat`.
-/

namespace ramfuzz

namespace runtime

/-- One record of the binary log: `output` writes `typetag(val)`, the raw
value bytes, and the decision id (ramfuzz-rt.hpp:163-168). -/
structure LogEntry where
  tag : Nat
  val : Int
  id : Nat
  deriving DecidableEq, Repr

/-- The `runmode` enum of class `gen` (ramfuzz-rt.hpp:111): values are
either generated at random or replayed from a previous log. -/
inductive Mode where
  | generate : Mode
  | replay : Mode
  deriving DecidableEq, Repr

/-- The state of a `gen` object: the run mode (fixed at construction), the
pseudorandom source `rgen` (modelled as a stream `Nat → Nat` read at
position `rpos`), the input log `ilog` (consumed from the front in replay
mode) and the output log `olog` (appended to in both modes). -/
structure GenState where
  runmode : Mode
  rgen : Nat → Nat
  rpos : Nat
  ilog : List LogEntry
  olog : List LogEntry

/-- Modelled from the spec: `uniform_random` is declared at
ramfuzz-rt.hpp:273 but its definition is not under src/; the spec says it
"draws uniformly from [lo, hi] inclusive using a seeded pseudorandom
source".  We model one draw from that source as a `Nat` `r` and map it
onto the inclusive range `[lo, hi]`. -/
def uniform_random (lo hi : Int) (r : Nat) : Int :=
  lo + ((r % (hi - lo + 1).toNat : Nat) : Int)

/-- `gen::output` (ramfuzz-rt.hpp:163-168): appends one record holding
`typetag(val)`, the value, and the id to the output log. -/
def output (tag : Nat) (val : Int) (id : Nat) (s : GenState) : GenState :=
  { s with olog := s.olog ++ [⟨tag, val, id⟩] }

/-- `gen::input` (ramfuzz-rt.hpp:171-177): reads the next record from the
input log; `assert(ty == typetag(val))` aborts the run on a tag mismatch
(modelled as `none`), as does reading past the end of the log (the
stream yields EOF, which matches no type tag).  The stored id is read
and discarded, never compared to anything. -/
def input (tag : Nat) (s : GenState) : Option (Int × GenState) :=
  match s.ilog with
  | [] => none
  | e :: rest =>
    if e.tag = tag then some (e.val, { s with ilog := rest }) else none

/-- `gen::between` (ramfuzz-rt.hpp:151-159): in generate mode the value is
drawn by `uniform_random(lo, hi)`; in replay mode it is read from the
input log.  In both modes the value and the supplied id are then appended
to the output log by `output(val, valueid)`. -/
def between (tag : Nat) (lo hi : Int) (valueid : Nat) (s : GenState) :
    Option (Int × GenState) :=
  match s.runmode with
  | .generate =>
    let val := uniform_random lo hi (s.rgen s.rpos)
    some (val, output tag val valueid { s with rpos := s.rpos + 1 })
  | .replay =>
    match input tag s with
    | none => none
    | some (val, s1) => some (val, output tag val valueid s1)

/-- A `between` call site: the type tag of `T`, the bounds, and the
decision id supplied by the caller. -/
structure Call where
  tag : Nat
  lo : Int
  hi : Int
  id : Nat

/-- Runs an ordered sequence of `between` calls against an engine state,
collecting the returned values; aborts (`none`) as soon as one call
aborts. -/
def runCalls : List Call → GenState → Option (List Int × GenState)
  | [], s => some ([], s)
  | c :: cs, s =>
    match between c.tag c.lo c.hi c.id s with
    | none => none
    | some (v, s1) =>
      match runCalls cs s1 with
      | none => none
      | some (vs, s2) => some (v :: vs, s2)

/-- A fresh generate-mode engine (constructor `gen(ologname)`,
ramfuzz-rt.hpp:115): empty output log, no input log. -/
def initGen (r : Nat → Nat) : GenState :=
  ⟨.generate, r, 0, [], []⟩

/-- A fresh replay-mode engine (constructor `gen(ilogname, ologname)`,
ramfuzz-rt.hpp:118): the input log holds the given records, the output
log starts empty.  The pseudorandom source is never consulted in replay
mode. -/
def initReplay (il : List LogEntry) : GenState :=
  ⟨.replay, fun _ => 0, 0, il, []⟩

/-- The values a generate-mode engine returns for a call sequence, when
its pseudorandom stream is `r` starting at position `pos`. -/
def genValues (r : Nat → Nat) : Nat → List Call → List Int
  | _, [] => []
  | pos, c :: cs =>
    uniform_random c.lo c.hi (r pos) :: genValues r (pos + 1) cs

/-- The output log a generate-mode engine writes for a call sequence. -/
def genLog (r : Nat → Nat) : Nat → List Call → List LogEntry
  | _, [] => []
  | pos, c :: cs =>
    ⟨c.tag, uniform_random c.lo c.hi (r pos), c.id⟩ :: genLog r (pos + 1) cs

theorem runCalls_generate (cs : List Call) :
    ∀ (r : Nat → Nat) (pos : Nat) (il ol : List LogEntry),
    runCalls cs ⟨.generate, r, pos, il, ol⟩ =
      some (genValues r pos cs,
        ⟨.generate, r, pos + cs.length, il, ol ++ genLog r pos cs⟩) := by
  induction cs with
  | nil => intro r pos il ol; simp [runCalls, genValues, genLog]
  | cons c cs ih =>
    intro r pos il ol
    simp only [runCalls, between, output, genValues, genLog, ih]
    simp [List.append_assoc]
    omega

theorem runCalls_replay (cs : List Call) :
    ∀ (r0 : Nat → Nat) (pos0 : Nat) (r : Nat → Nat) (pos : Nat)
      (rest ol : List LogEntry),
    runCalls cs ⟨.replay, r0, pos0, genLog r pos cs ++ rest, ol⟩ =
      some (genValues r pos cs,
        ⟨.replay, r0, pos0, rest, ol ++ genLog r pos cs⟩) := by
  induction cs with
  | nil => intro r0 pos0 r pos rest ol; simp [runCalls, genValues, genLog]
  | cons c cs ih =>
    intro r0 pos0 r pos rest ol
    simp only [genLog, genValues, runCalls, between, input, List.cons_append,
      output, if_pos rfl, if_true]
    rw [ih]
    simp [List.append_assoc]

/-- Projects a run result onto what the claims observe: the returned
values and the output log. -/
def ologView (o : Option (List Int × GenState)) :
    Option (List Int × List LogEntry) :=
  o.map fun p => (p.1, p.2.olog)

theorem ologView_step (v : Int) (o : Option (List Int × GenState)) :
    ologView (match o with
      | none => none
      | some (vs, s2) => some (v :: vs, s2)) =
      (ologView o).map (fun p => (v :: p.1, p.2)) := by
  cases o with
  | none => rfl
  | some p => rfl

/-- C1: replaying a Generate-mode session's output log through a fresh
Replay-mode engine, with the same ordered sequence of `between` calls
(same type tags, same order), returns the identical ordered sequence of
values. -/
theorem round_trip (calls : List Call) (r : Nat → Nat) :
    ∃ sg : GenState,
      runCalls calls (initGen r) = some (genValues r 0 calls, sg) ∧
      ∃ sr : GenState,
        runCalls calls (initReplay sg.olog) =
          some (genValues r 0 calls, sr) := by
  refine ⟨_, runCalls_generate calls r 0 [] [], ?_⟩
  refine ⟨⟨.replay, fun _ => 0, 0, [], genLog r 0 calls⟩, ?_⟩
  have h := runCalls_replay calls (fun _ => 0) 0 r 0 [] []
  simpa [initReplay] using h

/-- C2: for `lo ≤ hi`, `between(lo, hi, id)` in generate mode returns a
value `v` with `lo ≤ v ≤ hi`; in both modes a successful call appends
exactly one record to the output log, carrying `T`'s type tag and the
supplied id. -/
theorem between_bounds_and_log (tag : Nat) (lo hi : Int) (id : Nat)
    (s : GenState) (hle : lo ≤ hi) :
    (s.runmode = .generate →
      ∃ v s1, between tag lo hi id s = some (v, s1) ∧ lo ≤ v ∧ v ≤ hi ∧
        s1.olog = s.olog ++ [⟨tag, v, id⟩]) ∧
    (∀ v s1, between tag lo hi id s = some (v, s1) →
      s1.olog = s.olog ++ [⟨tag, v, id⟩]) := by
  have hn : ((hi - lo + 1).toNat : Int) = hi - lo + 1 :=
    Int.toNat_of_nonneg (by omega)
  constructor
  · intro hmode
    have hmod : s.rgen s.rpos % (hi - lo + 1).toNat < (hi - lo + 1).toNat :=
      Nat.mod_lt _ (by omega)
    refine ⟨uniform_random lo hi (s.rgen s.rpos),
      output tag (uniform_random lo hi (s.rgen s.rpos)) id
        { s with rpos := s.rpos + 1 }, ?_, ?_, ?_, ?_⟩
    · simp [between, hmode]
    · unfold uniform_random; omega
    · unfold uniform_random; omega
    · simp [output]
  · intro v s1 hcall
    cases hmode : s.runmode with
    | generate =>
      simp only [between, hmode] at hcall
      obtain ⟨hv, hs⟩ := Prod.mk.injEq .. ▸ Option.some.injEq .. ▸ hcall
      subst hv; subst hs; simp [output]
    | replay =>
      simp only [between, hmode] at hcall
      cases hil : s.ilog with
      | nil => simp [input, hil] at hcall
      | cons e rest =>
        by_cases htag : e.tag = tag
        · simp only [input, hil, htag, if_pos rfl] at hcall
          obtain ⟨hv, hs⟩ := Prod.mk.injEq .. ▸ Option.some.injEq .. ▸ hcall
          subst hv; subst hs; simp [output]
        · simp [input, hil, htag] at hcall

/-- Witness for C2 at a concrete input. -/
theorem between_bounds_and_log_witness :
    ((initGen (fun _ => 7)).runmode = .generate →
      ∃ v s1, between 3 0 10 42 (initGen (fun _ => 7)) = some (v, s1) ∧
        0 ≤ v ∧ v ≤ 10 ∧ s1.olog = (initGen (fun _ => 7)).olog ++ [⟨3, v, 42⟩]) ∧
    (∀ v s1, between 3 0 10 42 (initGen (fun _ => 7)) = some (v, s1) →
      s1.olog = (initGen (fun _ => 7)).olog ++ [⟨3, v, 42⟩]) :=
  between_bounds_and_log 3 0 10 42 (initGen (fun _ => 7)) (by decide)

/-- C5: in replay mode, when the next stored record's tag differs from the
tag of the type being read, the read aborts (`assert` failure, modelled
as `none`) and so does the whole remaining run, whatever calls follow. -/
theorem replay_tag_mismatch_aborts (tag : Nat) (lo hi : Int) (id : Nat)
    (s : GenState) (e : LogEntry) (rest : List LogEntry) (cs : List Call)
    (hmode : s.runmode = .replay) (hil : s.ilog = e :: rest)
    (hne : e.tag ≠ tag) :
    between tag lo hi id s = none ∧
      runCalls (⟨tag, lo, hi, id⟩ :: cs) s = none := by
  have h1 : between tag lo hi id s = none := by
    simp [between, hmode, input, hil, hne]
  exact ⟨h1, by simp [runCalls, h1]⟩

/-- Witness for C5 at a concrete input. -/
theorem replay_tag_mismatch_aborts_witness :
    between 1 0 10 7 ⟨.replay, fun _ => 0, 0, [⟨2, 5, 0⟩], []⟩ = none ∧
      runCalls [⟨1, 0, 10, 7⟩] ⟨.replay, fun _ => 0, 0, [⟨2, 5, 0⟩], []⟩ =
        none :=
  replay_tag_mismatch_aborts 1 0 10 7 _ ⟨2, 5, 0⟩ [] [] rfl rfl (by decide)

/-- C10: replay never compares the stored decision id to the supplied id
(`input` reads and discards it); two input logs that agree on tags and
values record-by-record, with arbitrary ids, replay to the same values
and the same output log, succeeding or aborting identically. -/
theorem replay_ignores_ids (calls : List Call) :
    ∀ (r : Nat → Nat) (pos : Nat) (ol l1 l2 : List LogEntry),
    List.Forall₂ (fun a b => a.tag = b.tag ∧ a.val = b.val) l1 l2 →
    ologView (runCalls calls ⟨.replay, r, pos, l1, ol⟩) =
      ologView (runCalls calls ⟨.replay, r, pos, l2, ol⟩) := by
  induction calls with
  | nil => intro r pos ol l1 l2 h; simp [runCalls, ologView]
  | cons c cs ih =>
    intro r pos ol l1 l2 h
    cases h with
    | nil => simp [runCalls, between, input, ologView]
    | @cons a b as bs hab htail =>
      obtain ⟨htag, hval⟩ := hab
      by_cases hc : a.tag = c.tag
      · have hc2 : b.tag = c.tag := htag ▸ hc
        simp only [runCalls, between, input, output, hc, hc2, if_pos rfl,
          if_true, hval]
        rw [ologView_step, ologView_step]
        exact congrArg _ (ih r pos (ol ++ [⟨c.tag, b.val, c.id⟩]) as bs htail)
      · have hc2 : ¬b.tag = c.tag := htag ▸ hc
        simp [runCalls, between, input, hc, hc2, ologView]

/-- Witness for C10 at a concrete input. -/
theorem replay_ignores_ids_witness :
    ologView (runCalls [⟨1, 0, 10, 7⟩]
        ⟨.replay, fun _ => 0, 0, [⟨1, 5, 0⟩], []⟩) =
      ologView (runCalls [⟨1, 0, 10, 7⟩]
        ⟨.replay, fun _ => 0, 0, [⟨1, 5, 99⟩], []⟩) :=
  replay_ignores_ids [⟨1, 0, 10, 7⟩] (fun _ => 0) 0 [] [⟨1, 5, 0⟩]
    [⟨1, 5, 99⟩] (List.Forall₂.cons ⟨rfl, rfl⟩ List.Forall₂.nil)

/-! ## Helper lemmas shared by several developments -/

theorem uniform_random_mem (lo hi : Int) (r : Nat) (hle : lo ≤ hi) :
    lo ≤ uniform_random lo hi r ∧ uniform_random lo hi r ≤ hi := by
  have hn : ((hi - lo + 1).toNat : Int) = hi - lo + 1 :=
    Int.toNat_of_nonneg (by omega)
  have hmod : r % (hi - lo + 1).toNat < (hi - lo + 1).toNat :=
    Nat.mod_lt _ (by omega)
  unfold uniform_random
  omega

theorem between_generate_eq (tag : Nat) (lo hi : Int) (id : Nat)
    (s : GenState) (hmode : s.runmode = .generate) :
    between tag lo hi id s =
      some (uniform_random lo hi (s.rgen s.rpos),
        output tag (uniform_random lo hi (s.rgen s.rpos)) id
          { s with rpos := s.rpos + 1 }) := by
  simp [between, hmode]

theorem between_runmode (tag : Nat) (lo hi : Int) (id : Nat)
    (s : GenState) (v : Int) (s1 : GenState)
    (h : between tag lo hi id s = some (v, s1)) :
    s1.runmode = s.runmode := by
  cases hmode : s.runmode with
  | generate =>
    rw [between_generate_eq tag lo hi id s hmode] at h
    obtain ⟨hv, hs⟩ := Prod.mk.injEq .. ▸ Option.some.injEq .. ▸ h
    subst hs; simp [output, hmode]
  | replay =>
    simp only [between, hmode] at h
    cases hil : s.ilog with
    | nil => simp [input, hil] at h
    | cons e rest =>
      by_cases htag : e.tag = tag
      · simp only [input, hil, htag, if_pos rfl] at h
        obtain ⟨hv, hs⟩ := Prod.mk.injEq .. ▸ Option.some.injEq .. ▸ h
        subst hs; simp [output, hmode]
      · simp [input, hil, htag] at h

/-! ## Spin count of the class-type `makenew` overload

Distinct type-tag constants for the instantiations appearing below; the
concrete byte values are immaterial, only their distinctness matters. -/

def tagUInt : Nat := 10

def tagChar : Nat := 11

def tagSizeT : Nat := 12

/-- The roulette spin count drawn by the class-type `makenew` overload
(ramfuzz-rt.hpp:220): `e = between(0u, runtime::spinlimit, valueid)`.
`spinlimit` is an `extern unsigned` that user code defines, so it is a
parameter.  The unsigned value travels through the log as `Int` and is
converted back with `toNat`. -/
def spinCount (spinlimit : Nat) (valueid : Nat) (s : GenState) :
    Option (Nat × GenState) :=
  (between tagUInt 0 (spinlimit : Int) valueid s).map fun p => (p.1.toNat, p.2)

/-- The method-roulette loop body (ramfuzz-rt.hpp:220-222): each iteration
draws a method index via `between(0u, h.mcount - 1, valueid)` and invokes
that harness method; the returned `Nat` counts the invocations
performed. -/
def mrouletteRun (mcount : Nat) (valueid : Nat) :
    Nat → GenState → Option (Nat × GenState)
  | 0, s => some (0, s)
  | k + 1, s =>
    (between tagUInt 0 ((mcount : Int) - 1) valueid s).bind fun p =>
      (mrouletteRun mcount valueid k p.2).map fun q => (q.1 + 1, q.2)

/-- The operation-invocation phase of the class-type `makenew` overload
(ramfuzz-rt.hpp:218-223): when `h.mcount` is nonzero, draw the spin count
and run the roulette that many times; otherwise no method is invoked.
Returns the number of operation invocations performed. -/
def makenewSpins (mcount spinlimit valueid : Nat) (s : GenState) :
    Option (Nat × GenState) :=
  if mcount = 0 then some (0, s)
  else
    (spinCount spinlimit valueid s).bind fun p =>
      mrouletteRun mcount valueid p.1 p.2

theorem mrouletteRun_generate (mcount valueid : Nat) :
    ∀ (k : Nat) (s : GenState), s.runmode = .generate →
    ∃ s2, mrouletteRun mcount valueid k s = some (k, s2) ∧
      s2.runmode = .generate := by
  intro k
  induction k with
  | zero => intro s h; exact ⟨s, rfl, h⟩
  | succ k ih =>
    intro s h
    rw [mrouletteRun, between_generate_eq _ _ _ _ s h]
    obtain ⟨s2, hrun, hmode⟩ :=
      ih (output tagUInt (uniform_random 0 ((mcount : Int) - 1)
        (s.rgen s.rpos)) valueid { s with rpos := s.rpos + 1 })
        (by simp [output, h])
    refine ⟨s2, ?_, hmode⟩
    simp only [Option.some_bind, hrun]
    rfl

/-- C6 (counterexample): the claim promises at most `spin_limit` operation
invocations in Replay mode as well, but replay reads the spin count from
the log unchecked.  With `spinlimit = 3` and an input log whose first
record stores the value 5, the composite synthesis performs 5 method
invocations. -/
theorem spin_bound_replay_counterexample :
    Option.map Prod.fst (makenewSpins 2 3 9
      ⟨.replay, fun _ => 0, 0,
        ⟨tagUInt, 5, 0⟩ :: List.replicate 5 ⟨tagUInt, 0, 0⟩, []⟩) =
      some 5 ∧ ¬(5 ≤ 3) := by
  constructor
  · decide
  · decide

/-- C6 (amended): in Generate mode the spin count is the modelled uniform
draw over `[0, spinlimit]`, so the number of operation invocations the
class-type `makenew` overload performs never exceeds `spinlimit`. -/
theorem spin_count_generate_bounded (mcount spinlimit valueid : Nat)
    (s : GenState) (hmode : s.runmode = .generate) :
    ∃ n s1, makenewSpins mcount spinlimit valueid s = some (n, s1) ∧
      n ≤ spinlimit := by
  unfold makenewSpins
  by_cases hm : mcount = 0
  · exact ⟨0, s, by simp [hm], Nat.zero_le _⟩
  · rw [if_neg hm]
    unfold spinCount
    rw [between_generate_eq _ _ _ _ s hmode]
    obtain ⟨s2, hrun, _⟩ := mrouletteRun_generate mcount valueid
      (uniform_random 0 (spinlimit : Int) (s.rgen s.rpos)).toNat
      (output tagUInt (uniform_random 0 (spinlimit : Int) (s.rgen s.rpos))
        valueid { s with rpos := s.rpos + 1 })
      (by simp [output, hmode])
    refine ⟨(uniform_random 0 (spinlimit : Int) (s.rgen s.rpos)).toNat, s2,
      ?_, ?_⟩
    · exact hrun
    · have hb := uniform_random_mem 0 (spinlimit : Int) (s.rgen s.rpos)
        (by exact_mod_cast Nat.zero_le spinlimit)
      omega

/-- Witness for the amended C6 at a concrete input. -/
theorem spin_count_generate_bounded_witness :
    ∃ n s1, makenewSpins 2 3 9 (initGen (fun _ => 5)) = some (n, s1) ∧
      n ≤ 3 :=
  spin_count_generate_bounded 2 3 9 (initGen (fun _ => 5)) rfl

/-! ## The char-pointer (text-like) `makenew` overload -/

/-- `numeric_limits<char>` bounds; plain `char` is modelled as the usual
signed 8-bit type. -/
def charMin : Int := -128

def charMax : Int := 127

/-- `numeric_limits<size_t>::max()` on a 64-bit target. -/
def sizeTMax : Int := 2 ^ 64 - 1

/-- The fill loop of the char-pointer overload (ramfuzz-rt.hpp:255-257):
positions `i, i+1, ...` (with `k` positions remaining) each receive one
`between` draw over the full character domain. -/
def fillChars (valueid : Nat) :
    Nat → Nat → List Int → GenState → Option (List Int × GenState)
  | _, 0, buf, s => some (buf, s)
  | i, k + 1, buf, s =>
    (between tagChar charMin charMax valueid s).bind fun p =>
      fillChars valueid (i + 1) k (buf.set i p.1) p.2

/-- The char-pointer overload of `makenew` (ramfuzz-rt.hpp:247-259): draw
the size `sz` via `make<size_t>(1000000 + valueid)` (whose arithmetic
overload draws `between` over the full `size_t` range; the pool store of
that drawn size is modelled in the pool development below), allocate an
uninitialized buffer of `sz + 1` bytes (the junk content is the `uninit`
parameter), set index `sz` to the 0 terminator, then fill indices
`[0, sz)`. -/
def makenewCharPtr (uninit : Int) (valueid : Nat) (s : GenState) :
    Option (List Int × GenState) :=
  (between tagSizeT 0 sizeTMax (1000000 + valueid) s).bind fun p =>
    fillChars valueid 0 p.1.toNat
      ((List.replicate (p.1.toNat + 1) uninit).set p.1.toNat 0) p.2

theorem fillChars_length (valueid : Nat) :
    ∀ (k i : Nat) (buf : List Int) (s : GenState) (buf2 : List Int)
      (s2 : GenState),
    fillChars valueid i k buf s = some (buf2, s2) →
    buf2.length = buf.length := by
  intro k
  induction k with
  | zero =>
    intro i buf s buf2 s2 h
    obtain ⟨h1, h2⟩ := Prod.mk.injEq .. ▸ Option.some.injEq .. ▸ h
    subst h1; rfl
  | succ k ih =>
    intro i buf s buf2 s2 h
    rw [fillChars] at h
    cases hb : between tagChar charMin charMax valueid s with
    | none => rw [hb] at h; exact absurd h (by simp)
    | some p =>
      rw [hb, Option.some_bind] at h
      have := ih (i + 1) (buf.set i p.1) p.2 buf2 s2 h
      simpa [List.length_set] using this

theorem fillChars_untouched (valueid : Nat) :
    ∀ (k i : Nat) (buf : List Int) (s : GenState) (buf2 : List Int)
      (s2 : GenState),
    fillChars valueid i k buf s = some (buf2, s2) →
    ∀ j, (j < i ∨ i + k ≤ j) → buf2[j]? = buf[j]? := by
  intro k
  induction k with
  | zero =>
    intro i buf s buf2 s2 h j hj
    obtain ⟨h1, h2⟩ := Prod.mk.injEq .. ▸ Option.some.injEq .. ▸ h
    subst h1; rfl
  | succ k ih =>
    intro i buf s buf2 s2 h j hj
    rw [fillChars] at h
    cases hb : between tagChar charMin charMax valueid s with
    | none => rw [hb] at h; exact absurd h (by simp)
    | some p =>
      rw [hb, Option.some_bind] at h
      have hstep := ih (i + 1) (buf.set i p.1) p.2 buf2 s2 h j (by omega)
      rw [hstep, List.getElem?_set_ne (by omega)]

theorem fillChars_filled (valueid : Nat) :
    ∀ (k i : Nat) (buf : List Int) (s : GenState) (buf2 : List Int)
      (s2 : GenState),
    s.runmode = .generate →
    fillChars valueid i k buf s = some (buf2, s2) →
    ∀ j, i ≤ j → j < i + k → j < buf.length →
      ∃ c, buf2[j]? = some c ∧ charMin ≤ c ∧ c ≤ charMax := by
  intro k
  induction k with
  | zero => intro i buf s buf2 s2 _ h j h1 h2 h3; omega
  | succ k ih =>
    intro i buf s buf2 s2 hmode h j h1 h2 h3
    rw [fillChars, between_generate_eq _ _ _ _ s hmode,
      Option.some_bind] at h
    have hcb : charMin ≤ uniform_random charMin charMax (s.rgen s.rpos) ∧
        uniform_random charMin charMax (s.rgen s.rpos) ≤ charMax :=
      uniform_random_mem charMin charMax (s.rgen s.rpos) (by decide)
    by_cases hji : j = i
    · subst hji
      have huntouched := fillChars_untouched valueid k (j + 1)
        (buf.set j (uniform_random charMin charMax (s.rgen s.rpos)))
        _ buf2 s2 h j (by omega)
      refine ⟨uniform_random charMin charMax (s.rgen s.rpos), ?_,
        hcb.1, hcb.2⟩
      rw [huntouched, List.getElem?_set_self (by simpa [List.length_set])]
    · exact ih (i + 1)
        (buf.set i (uniform_random charMin charMax (s.rgen s.rpos)))
        _ buf2 s2 (by simp [output, hmode]) h j
        (by omega) (by omega) (by simpa [List.length_set])

/-- C7: whenever the char-pointer synthesis succeeds, the buffer has
exactly `sz + 1` bytes for the sampled length `sz`, its final byte (index
`sz`) is the terminator 0 regardless of the sampled content, and in
Generate mode every one of the first `sz` bytes is a sample from the full
character domain `[charMin, charMax]`. -/
theorem make_char_ptr_shape (uninit : Int) (valueid : Nat) (s : GenState)
    (szv : Int) (buf : List Int)
    (hsz : (between tagSizeT 0 sizeTMax (1000000 + valueid) s).map
      Prod.fst = some szv)
    (hrun : (makenewCharPtr uninit valueid s).map Prod.fst = some buf) :
    buf.length = szv.toNat + 1 ∧ buf[szv.toNat]? = some 0 ∧
      (s.runmode = .generate → ∀ i, i < szv.toNat →
        ∃ c, buf[i]? = some c ∧ charMin ≤ c ∧ c ≤ charMax) := by
  cases hb : between tagSizeT 0 sizeTMax (1000000 + valueid) s with
  | none => rw [hb] at hsz; exact absurd hsz (by simp)
  | some p =>
    obtain ⟨v0, s1⟩ := p
    rw [hb] at hsz
    have hv0 : v0 = szv := by simpa using hsz
    rw [hv0] at hb
    unfold makenewCharPtr at hrun
    rw [hb, Option.some_bind] at hrun
    cases hf : fillChars valueid 0 szv.toNat
        ((List.replicate (szv.toNat + 1) uninit).set szv.toNat 0) s1 with
    | none => rw [hf] at hrun; exact absurd hrun (by simp)
    | some q =>
      obtain ⟨bufq, s2⟩ := q
      rw [hf] at hrun
      have hbq : bufq = buf := by simpa using hrun
      subst hbq
      have hlen0 : ((List.replicate (szv.toNat + 1) uninit).set
          szv.toNat 0).length = szv.toNat + 1 := by
        simp [List.length_set, List.length_replicate]
      have hlen : bufq.length = szv.toNat + 1 :=
        (fillChars_length valueid szv.toNat 0 _ s1 bufq s2 hf).trans hlen0
      refine ⟨hlen, ?_, ?_⟩
      · have hu := fillChars_untouched valueid szv.toNat 0 _ s1 bufq s2 hf
          szv.toNat (by omega)
        rw [hu, List.getElem?_set_self (by simp [List.length_replicate])]
      · intro hmode i hi
        have hmode1 : s1.runmode = .generate := by
          rw [between_runmode _ _ _ _ s szv s1 hb]; exact hmode
        exact fillChars_filled valueid szv.toNat 0 _ s1 bufq s2 hmode1 hf i
          (Nat.zero_le i) (by omega) (by omega)

/-- Witness for C7 at a concrete input: the pseudorandom stream constantly
5 draws size 5, so the buffer has 6 bytes ending in the terminator. -/
theorem make_char_ptr_shape_witness :
    (between tagSizeT 0 sizeTMax 1000009 (initGen (fun _ => 5))).map
        Prod.fst = some 5 ∧
    (makenewCharPtr 7 9 (initGen (fun _ => 5))).map Prod.fst =
        some [(-123 : Int), -123, -123, -123, -123, 0] ∧
    ([(-123 : Int), -123, -123, -123, -123, 0].length =
        (5 : Int).toNat + 1) ∧
    [(-123 : Int), -123, -123, -123, -123, 0][(5 : Int).toNat]? =
        some 0 := by
  have h1 : (between tagSizeT 0 sizeTMax 1000009 (initGen (fun _ => 5))).map
      Prod.fst = some 5 := by decide
  have h2 : (makenewCharPtr 7 9 (initGen (fun _ => 5))).map Prod.fst =
      some [(-123 : Int), -123, -123, -123, -123, 0] := by decide
  have h := make_char_ptr_shape 7 9 (initGen (fun _ => 5)) 5
    [(-123 : Int), -123, -123, -123, -123, 0] h1 h2
  exact ⟨h1, h2, h.1, h.2.1⟩

/-! ## Pools and dynamic types

`gen::make` and the `makenew` overloads, tracked at the level of pools
(`gen::storage`) and dynamic types.  A type identity (`std::type_index`)
is a `TId`; a handle in a pool is represented by its dynamic type.  The
decisions (`between` results) are abstracted into a stream `d : Nat → Nat`
read at `pos` — which run mode produced them is irrelevant to pool
contents. -/

/-- A type identity (`std::type_index`). -/
abbrev TId := Nat

/-- What the generated `harness<T>` exposes to `makenew`
(ramfuzz-rt.hpp:57-71): `subs` are the direct-subclass factories
(`submakers`, one per direct subclass, each producing an object of that
subclass), so `subs.length` is `subcount`; `mcount` counts the
non-constructor harness methods. -/
structure ClassInfo where
  subs : List TId
  mcount : Nat

/-- Pool-level engine state: the decision stream position and
`gen::storage` (ramfuzz-rt.hpp:289), mapping each type identity to the
dynamic types of the handles stored in its pool. -/
structure PoolState where
  pos : Nat
  storage : TId → List TId

/-- `gen::reuse` (ramfuzz-rt.hpp:277): unconditionally false in the
reference code. -/
def reuse : Bool := false

/-- `gen::store` (ramfuzz-rt.hpp:180-183): appends the new handle as the
newest element of `T`'s storage.  `dyn` is the handle's dynamic type. -/
def store (T : TId) (dyn : TId) (s : PoolState) : PoolState :=
  { s with storage := fun U =>
      if U = T then s.storage U ++ [dyn] else s.storage U }

mutual

/-- `gen::make` (ramfuzz-rt.hpp:134-143) composed with the class overload
of `gen::makenew` (ramfuzz-rt.hpp:208-226).  The reuse branch indexes the
pool with `between<size_t>(0, oldies.size()-1, valueid)`; it is dead code
because `reuse()` is constantly false, but embedded nonetheless.  The
subclass branch (`subcount && allow_subclass && between(0.,1.,valueid) >
0.5`, then `submakers[between(0, subcount-1, valueid)]`) invokes the
chosen submaker, which builds a random object of that direct subclass —
modelled as a recursive `make` of the subclass — and returns it WITHOUT
storing it into `T`'s pool.  The direct branch constructs `harness<T>`,
runs the method roulette, and stores `h.obj` — an object whose dynamic
type is exactly `T` — into `T`'s pool.  `fuel` only totalizes the shallow
embedding (the C++ recursion is unbounded); harness methods are generated
code that draws its argument values through the same engine
(ramfuzz-rt.hpp:47-51), modelled as one recursive `make` per spin on a
drawn type. -/
def make (d : Nat → Nat) (G : TId → ClassInfo) :
    Nat → TId → Bool → PoolState → Option (TId × PoolState)
  | 0, _, _, _ => none
  | fuel + 1, T, allow_subclass, s =>
    if ¬(s.storage T).isEmpty ∧ reuse then
      some ((s.storage T).getD (d s.pos % (s.storage T).length) T,
        { s with pos := s.pos + 1 })
    else
      if (G T).subs.length ≠ 0 ∧ allow_subclass ∧ d s.pos % 2 = 1 then
        make d G fuel
          ((G T).subs.getD (d (s.pos + 1) % (G T).subs.length) T) true
          { s with pos := s.pos + 2 }
      else
        if (G T).mcount = 0 then
          some (T, store T T { s with pos := s.pos + 1 })
        else
          match spins d G fuel (d s.pos) { s with pos := s.pos + 1 } with
          | none => none
          | some s2 => some (T, store T T s2)

/-- The method-roulette loop of the class overload
(ramfuzz-rt.hpp:219-223): the first `draw` in `make` above is
`between(0u, spinlimit, valueid)` (its value is NOT clamped here: pool
safety holds for any spin count); each iteration invokes one harness
method, which generates its argument values through the engine. -/
def spins (d : Nat → Nat) (G : TId → ClassInfo) :
    Nat → Nat → PoolState → Option PoolState
  | 0, _, _ => none
  | _ + 1, 0, s => some s
  | fuel + 1, e + 1, s =>
    match make d G fuel (d s.pos) true { s with pos := s.pos + 1 } with
    | none => none
    | some (_, s2) => spins d G fuel e s2

end

/-- The pool invariant: every handle in `T`'s pool has dynamic type
exactly `T`. -/
def Inv (s : PoolState) : Prop := ∀ U x, x ∈ s.storage U → x = U

theorem store_inv (T : TId) (s : PoolState) (hs : Inv s) :
    Inv (store T T s) := by
  intro U x hx
  simp only [store] at hx
  by_cases hUT : U = T
  · rw [if_pos hUT] at hx
    rcases List.mem_append.mp hx with hmem | hone
    · exact hs U x hmem
    · rw [List.mem_singleton.mp hone]; exact hUT.symm
  · rw [if_neg hUT] at hx
    exact hs U x hx

theorem make_spins_inv (d : Nat → Nat) (G : TId → ClassInfo) :
    ∀ fuel : Nat,
      (∀ T allow s v s2, Inv s → make d G fuel T allow s = some (v, s2) →
        Inv s2) ∧
      (∀ e s s2, Inv s → spins d G fuel e s = some s2 → Inv s2) := by
  intro fuel
  induction fuel with
  | zero =>
    constructor
    · intro T allow s v s2 _ h; exact absurd h (by simp [make])
    · intro e s s2 _ h; exact absurd h (by simp [spins])
  | succ fuel ih =>
    constructor
    · intro T allow s v s2 hs h
      rw [make] at h
      rw [if_neg (by simp [reuse])] at h
      by_cases hsub : (G T).subs.length ≠ 0 ∧ allow ∧ d s.pos % 2 = 1
      · rw [if_pos hsub] at h
        exact ih.1 _ _ { s with pos := s.pos + 2 } _ _
          (fun U x hx => hs U x hx) h
      · rw [if_neg hsub] at h
        by_cases hmc : (G T).mcount = 0
        · rw [if_pos hmc] at h
          obtain ⟨h1, h2⟩ := Prod.mk.injEq .. ▸ Option.some.injEq .. ▸ h
          subst h2
          exact store_inv T _ (fun U x hx => hs U x hx)
        · rw [if_neg hmc] at h
          cases hsp : spins d G fuel (d s.pos) { s with pos := s.pos + 1 }
            with
          | none => rw [hsp] at h; exact absurd h (by simp)
          | some s3 =>
            rw [hsp] at h
            obtain ⟨h1, h2⟩ := Prod.mk.injEq .. ▸ Option.some.injEq .. ▸ h
            subst h2
            exact store_inv T s3
              (ih.2 (d s.pos) { s with pos := s.pos + 1 } s3
                (fun U x hx => hs U x hx) hsp)
    · intro e s s2 hs h
      match e with
      | 0 =>
        rw [spins] at h
        have h2 : s = s2 := Option.some.injEq .. ▸ h
        subst h2; exact hs
      | e + 1 =>
        rw [spins] at h
        cases hmk : make d G fuel (d s.pos) true { s with pos := s.pos + 1 }
          with
        | none => rw [hmk] at h; exact absurd h (by simp)
        | some p =>
          rw [hmk] at h
          exact ih.2 e p.2 s2
            (ih.1 (d s.pos) true { s with pos := s.pos + 1 } p.1 p.2
              (fun U x hx => hs U x hx) (by rw [hmk]) ) h

/-- The empty engine: pools start empty (gen and its storage are created
together at the start of a run). -/
def initPool : PoolState := ⟨0, fun _ => []⟩

/-- A whole run: a sequence of top-level `make<T>(valueid,
allow_subclass)` requests against one engine. -/
def runReqs (d : Nat → Nat) (G : TId → ClassInfo) (fuel : Nat) :
    List (TId × Bool) → PoolState → PoolState
  | [], s => s
  | r :: rs, s =>
    match make d G fuel r.1 r.2 s with
    | none => runReqs d G fuel rs s
    | some (_, s2) => runReqs d G fuel rs s2

theorem runReqs_inv (d : Nat → Nat) (G : TId → ClassInfo) (fuel : Nat) :
    ∀ (reqs : List (TId × Bool)) (s : PoolState), Inv s →
      Inv (runReqs d G fuel reqs s) := by
  intro reqs
  induction reqs with
  | nil => intro s hs; exact hs
  | cons r rs ih =>
    intro s hs
    rw [runReqs]
    cases hm : make d G fuel r.1 r.2 s with
    | none => exact ih s hs
    | some p =>
      exact ih p.2 ((make_spins_inv d G fuel).1 r.1 r.2 s p.1 p.2 hs
        (by rw [hm]))

/-- C3: for every decision stream, type graph, and request sequence, no
pool for `T` ever contains a handle whose dynamic type differs from `T`
(in particular never a strict subtype): the subclass-factory branch of
the class `makenew` overload returns the submaker's object without
storing it into `T`'s pool, and every `store` call inserts an object of
dynamic type exactly the pool's type. -/
theorem storage_never_holds_subclass (d : Nat → Nat) (G : TId → ClassInfo)
    (fuel : Nat) (reqs : List (TId × Bool)) (U : TId) :
    ((runReqs d G fuel reqs initPool).storage U).all
      (fun x => x == U) = true := by
  have hinit : Inv initPool := by
    intro V x hx
    simp [initPool] at hx
  have hinv : Inv (runReqs d G fuel reqs initPool) :=
    runReqs_inv d G fuel reqs initPool hinit
  rw [List.all_eq_true]
  intro x hx
  exact beq_iff_eq.mpr (hinv U x hx)

/-! ## Depth-bounded recursive synthesis -/

/-- `runtime::depthlimit` (ramfuzz-rt.hpp:301). -/
def depthlimit : Nat := 20

mutual

/-- Modelled from the spec: the per-run depth counter lives in the
generated RamFuzz classes, not under src/ (the runtime only defines
`depthlimit` and documents the guard, ramfuzz-rt.hpp:297-301).  Per the
spec, composite and pointer-like synthesis increment a per-run depth
counter and, once `depthlimit` is exceeded, terminate recursion
deterministically by returning a default instance that recurses no
further.  `budget` is the remaining allowance (`depthlimit` minus the
current depth); `G T` lists the types `T`'s synthesis recursively
constructs (an arbitrary, possibly mutually-referential type graph).
Returns the maximum nesting depth of composite/pointer constructions
performed. -/
def synthDepth (G : TId → List TId) : Nat → TId → Nat
  | 0, _ => 0
  | budget + 1, T => 1 + synthDepthList G budget (G T)

/-- Maximum nesting depth over a list of recursively synthesized
component types. -/
def synthDepthList (G : TId → List TId) : Nat → List TId → Nat
  | _, [] => 0
  | budget, U :: Us =>
    max (synthDepth G budget U) (synthDepthList G budget Us)

end

theorem synthDepth_le (G : TId → List TId) :
    ∀ budget : Nat,
      (∀ T, synthDepth G budget T ≤ budget) ∧
      (∀ l, synthDepthList G budget l ≤ budget) := by
  intro budget
  induction budget with
  | zero =>
    constructor
    · intro T; rw [synthDepth]
    · intro l
      induction l with
      | nil => rw [synthDepthList]
      | cons U Us ihl =>
        rw [synthDepthList]
        have h1 : synthDepth G 0 U = 0 := by rw [synthDepth]
        omega
  | succ budget ih =>
    have hlist : ∀ l, synthDepthList G (budget + 1) l ≤ budget + 1 := by
      intro l
      induction l with
      | nil => rw [synthDepthList]; omega
      | cons U Us ihl =>
        rw [synthDepthList]
        have h1 : synthDepth G (budget + 1) U ≤ budget + 1 := by
          rw [synthDepth]
          have := ih.2 (G U)
          omega
        omega
    constructor
    · intro T
      rw [synthDepth]
      have := ih.2 (G T)
      omega
    · exact hlist

/-- C4: for every type graph — including mutually-referential ones — and
every synthesis root, the depth-guarded synthesis never nests more than
`depthlimit` composite/pointer constructions, and at an exhausted depth
budget the cutoff deterministically performs no nested construction at
all (the recursion terminates). -/
theorem synth_depth_bounded (G : TId → List TId) (T : TId) :
    synthDepth G depthlimit T ≤ depthlimit ∧ synthDepth G 0 T = 0 :=
  ⟨(synthDepth_le G depthlimit).1 T, by rw [synthDepth]⟩

end runtime

/-! ## The `harness<std::basic_string>` specialization

The constructor (ramfuzz-rt.hpp:350-356) initializes `obj` to
`new basic_string(*g.make<size_t>(3), CharT())` — `n` copies of the zero
character for the sampled length `n` — then runs

```
for (size_t i = 0; i < obj->size() - 1; ++i)
  obj[i] = g.between<CharT>(1, std::numeric_limits<CharT>::max(), 4);
obj->back() = CharT(0);
```

`obj` is the data member `basic_string *obj`, so `obj[i]` designates the
`basic_string` object at offset `i` from that pointer — not character `i`
of the string: for `i = 0` the assignment resolves to
`basic_string::operator=(CharT)`, replacing the whole string `*obj` with
a one-character string; for `i ≥ 1` it would write past the allocated
object (undefined behavior, modelled as `none`).  The loop bound
`obj->size() - 1` is `size_t` arithmetic and wraps around for an empty
string.  The embedding below follows that faithfully; strings are lists
of character values. -/

/-- `size_t` wraparound of `l - 1` (`obj->size() - 1` for a string of
length `l < 2^64`). -/
def wrapSub1 (l : Nat) : Nat := if l = 0 then 2 ^ 64 - 1 else l - 1

/-- The write `obj[i] = c` (ramfuzz-rt.hpp:354): for `i = 0`,
`basic_string::operator=(CharT)` replaces the contents of `*obj` with the
one-character string; for `i ≥ 1` the access is out of bounds. -/
def strWrite (i : Nat) (c : Int) (_st : List Int) : Option (List Int) :=
  if i = 0 then some [c] else none

/-- The fill loop (ramfuzz-rt.hpp:353-354): while `i < obj->size() - 1`
(re-evaluated against the current string each iteration), perform the
write and increment `i`.  The `fuel` argument only totalizes the shallow
embedding; it is not in the source. -/
def strLoop (cs : Nat → Int) : Nat → Nat → List Int → Option (List Int)
  | 0, _, _ => none
  | f + 1, i, st =>
    if i < wrapSub1 st.length then
      (strWrite i (cs i) st).bind (strLoop cs f (i + 1))
    else some st

/-- `obj->back() = CharT(0)` (ramfuzz-rt.hpp:355): undefined behavior on
an empty string, otherwise replaces the final character with 0. -/
def strBack0 : List Int → Option (List Int)
  | [] => none
  | c :: rest => some ((c :: rest).dropLast ++ [0])

/-- The complete `harness<std::basic_string>` constructor effect on `*obj`
(ramfuzz-rt.hpp:350-356) for sampled length `n`; `cs` is the stream of
characters the `between<CharT>(1, max, 4)` calls would return. -/
def stringHarnessObj (n : Nat) (cs : Nat → Int) : Option (List Int) :=
  (strLoop cs (n + 2) 0 (List.replicate n 0)).bind strBack0

/-- C8 (code evaluation): for EVERY sampled length `n` — zero included —
and every character stream, the constructed string is the one-character
string consisting of just the terminator, never a length-`n` string of
sampled characters: the loop's first iteration collapses the string to
one character (so the loop exits after re-evaluating its bound), and the
terminator write then overwrites that character. -/
theorem string_harness_always_terminator (n : Nat) (cs : Nat → Int) :
    stringHarnessObj n cs = some [0] := by
  match n with
  | 0 => rfl
  | 1 => rfl
  | k + 2 => simp [stringHarnessObj, strLoop, wrapSub1, strWrite, strBack0]

end ramfuzz

/-! ## The descriptor generator visibility predicate

`globally_visible` (src/lib/Util.cpp:102-121).  A `CXXRecordDecl` is
modelled by whether `getIdentifier()` is non-null, its effective access
(`getAccess`, Util.cpp:33-38: the described class template's access when
one exists, else the decl's own), and its `getLookupParent()` chain.  The
chain consists of namespaces (annotated with `isAnonymousNamespace`),
records (the fields `dyn_cast<CXXRecordDecl>` would observe), other
declaration contexts (functions etc., for which the `dyn_cast` yields
null), and the terminating `TranslationUnitDecl`. -/

/-- `clang::AccessSpecifier`. -/
inductive Access where
  | pub : Access
  | priv : Access
  | prot : Access
  | nospec : Access
  deriving DecidableEq

/-- A `DeclContext` chain as `globally_visible` observes it. -/
inductive Ctx where
  | tu : Ctx
  | ns : Bool → Ctx → Ctx
  | recParent : Bool → Access → Ctx → Ctx
  | otherCtx : Ctx → Ctx

/-- A `CXXRecordDecl`: identifier present, effective access, lookup
parent. -/
structure RecDecl where
  hasIdent : Bool
  acc : Access
  parent : Ctx

/-- The `while (!isa<TranslationUnitDecl>(ctx))` loop of
`globally_visible` (Util.cpp:110-120).  A namespace context is checked
for anonymity and skipped; a record context makes the source recurse,
`return globally_visible(dyn_cast<CXXRecordDecl>(ctx))` — the record case
of `globally_visible` is inlined here so the recursion is structural, and
`lookupWalk_recParent` below certifies the inlining is exactly that
recursive call; any other context makes the `dyn_cast` yield null and
`globally_visible(nullptr)` returns false. -/
def lookupWalk : Ctx → Bool
  | .tu => true
  | .ns anonymous parent => if anonymous then false else lookupWalk parent
  | .recParent hasIdent acc parent =>
    if hasIdent = false then false
    else if acc = .priv ∨ acc = .prot then false
    else lookupWalk parent
  | .otherCtx _ => false

/-- `globally_visible` (Util.cpp:102-121): false for a null decl or a
nameless record; false for private or protected effective access; else
walk the lookup-parent chain. -/
def globally_visible : Option RecDecl → Bool
  | none => false
  | some r =>
    if r.hasIdent = false then false
    else if r.acc = .priv ∨ r.acc = .prot then false
    else lookupWalk r.parent

theorem lookupWalk_recParent (h : Bool) (a : Access) (p : Ctx) :
    lookupWalk (.recParent h a p) = globally_visible (some ⟨h, a, p⟩) := rfl

/-- No anonymous namespace anywhere along a context chain. -/
def anonFree : Ctx → Bool
  | .tu => true
  | .ns anonymous parent => !anonymous && anonFree parent
  | .recParent _ _ parent => anonFree parent
  | .otherCtx parent => anonFree parent

theorem lookupWalk_anonFree :
    ∀ c : Ctx, lookupWalk c = true → anonFree c = true := by
  intro c
  induction c with
  | tu => intro _; rfl
  | ns anonymous parent ih =>
    intro h
    rw [lookupWalk] at h
    cases hanon : anonymous with
    | true => rw [hanon] at h; exact absurd h (by simp)
    | false =>
      rw [hanon, if_neg (by simp)] at h
      simp [anonFree, ih h]
  | recParent hasIdent acc parent ih =>
    intro h
    rw [lookupWalk] at h
    by_cases h1 : hasIdent = false
    · rw [if_pos h1] at h; exact absurd h (by simp)
    · rw [if_neg h1] at h
      by_cases h2 : acc = .priv ∨ acc = .prot
      · rw [if_pos h2] at h; exact absurd h (by simp)
      · rw [if_neg h2] at h
        simpa [anonFree] using ih h
  | otherCtx parent ih =>
    intro h
    exact absurd h (by simp [lookupWalk])

/-- C9: the visibility predicate classifies a record as globally visible
only if it has a name, its effective access is neither private nor
protected, and no context on its lookup-parent chain — at any enclosing
scope — is an anonymous namespace; and the Scenario D record (named,
unrestricted access, nested inside a class that sits in an anonymous
namespace) is classified as not globally visible. -/
theorem globally_visible_only_if :
    (∀ (h : Bool) (a : Access) (p : Ctx),
      globally_visible (some ⟨h, a, p⟩) = true →
      h = true ∧ a ≠ .priv ∧ a ≠ .prot ∧ anonFree p = true) ∧
    globally_visible (some ⟨true, .pub,
      .recParent true .pub (.ns true .tu)⟩) = false := by
  constructor
  · intro h a p hv
    rw [globally_visible] at hv
    by_cases h1 : h = false
    · rw [if_pos h1] at hv; exact absurd hv (by simp)
    · rw [if_neg h1] at hv
      by_cases h2 : a = .priv ∨ a = .prot
      · rw [if_pos h2] at hv; exact absurd hv (by simp)
      · rw [if_neg h2] at hv
        refine ⟨by revert h1; cases h <;> simp, ?_, ?_, ?_⟩
        · intro hc; exact h2 (Or.inl hc)
        · intro hc; exact h2 (Or.inr hc)
        · exact lookupWalk_anonFree p hv
  · rfl

/-- Witness for C9 at a concrete input: a named public record at
translation-unit scope is visible, so the necessary conditions follow for
it; the Scenario D record is rejected. -/
theorem globally_visible_only_if_witness :
    (true = true ∧ Access.pub ≠ Access.priv ∧ Access.pub ≠ Access.prot ∧
      anonFree .tu = true) ∧
    globally_visible (some ⟨true, .pub,
      .recParent true .pub (.ns true .tu)⟩) = false :=
  ⟨globally_visible_only_if.1 true .pub .tu (by decide),
    globally_visible_only_if.2⟩
